import Mathlib

/-!
Shallow embedding of `src/code/die-roll/src/main.rs`: a program that reads
bytes from the operating-system entropy device `/dev/urandom`, maps each
byte to a die face in [1, 6], tallies face frequencies over a fixed number
of trials in a `BTreeMap<u32, u32>`, and prints one report line per
observed face.

Modelling choices:
- The entropy device is modelled as an environment `env : Nat → ReadOutcome`
  giving the outcome of the i-th call to `get_random_int`: either an I/O
  failure (opening or reading the device) carrying an error identity, or a
  successful `read` call that delivered zero bytes or one byte.
- `u32` values are `Nat` (all arithmetic here stays far below `2 ^ 32`,
  except where a bound is stated explicitly as a hypothesis).
- `BTreeMap<u32, u32>` is an association list with strictly increasing
  keys; `entry(k).or_insert(0)` followed by `*counter += 1` is `incr`.
- Rust `fn main() -> Result<(), Error>` exits with code 0 when it returns
  `Ok(())` and code 1 (after printing nothing to stdout) when it returns
  `Err(e)`; `runProgram` returns the list of stdout lines and the exit code.
- The `f64` percentage `100.0 * appearances / trials` is modelled as the
  exact rational `100 * appearances / trials`.
-/

deriving instance DecidableEq for Except

namespace DieRoll

/-- Outcome of one call to `get_random_int`: `err e` when opening
`/dev/urandom` or the `read` call fails with an I/O error identified by
`e`, or `ok data` when the `read` call succeeds, having filled the first
buffer byte with `b` (`data = some b`) or delivered zero bytes
(`data = none`). -/
inductive ReadOutcome where
  | err (e : Nat) : ReadOutcome
  | ok (data : Option Nat) : ReadOutcome
deriving DecidableEq, Repr

/-- True exactly when the outcome is an I/O failure. -/
def isErr : ReadOutcome → Bool
  | .err _ => true
  | .ok _ => false

/-- Embedding of `u32::from_le_bytes` on a 4-byte buffer, little-endian. -/
def u32_from_le_bytes (b0 b1 b2 b3 : Nat) : Nat :=
  b0 + 2 ^ 8 * b1 + 2 ^ 16 * b2 + 2 ^ 24 * b3

/-- Embedding of `get_random_int` at a given read outcome `o`.
The Rust function zero-initialises a 4-byte buffer, reads at most one byte
into its first cell, masks that cell with `0b00000111`, and reassembles the
buffer with `u32::from_le_bytes`. -/
def get_random_int (o : ReadOutcome) : Except Nat Nat :=
  match o with
  | .err e => .error e
  | .ok data =>
    -- let mut buf = [0_u8; 4]; handle.read(&mut buf) writes at most buf[0]
    let b0 : Nat := match data with
      | none => 0
      | some b => b % 2 ^ 8
    -- buf[0] &= 0b00000111
    let b0 := b0 &&& 0b00000111
    .ok (u32_from_le_bytes b0 0 0 0)

/-- Embedding of `die_roll`: `random_int % 6 + 1`. -/
def die_roll (random_int : Nat) : Nat :=
  random_int % 6 + 1

/-- The `BTreeMap<u32, u32>` frequency table: an association list from face
to count, kept with strictly increasing keys (the order `BTreeMap`
iterates in). -/
abbrev FreqTable := List (Nat × Nat)

/-- Embedding of `frequency.entry(roll).or_insert(0); *counter += 1`:
increment the count stored at key `k`, inserting the entry with count 1
(0, then incremented) when absent, preserving increasing key order. -/
def incr (t : FreqTable) (k : Nat) : FreqTable :=
  match t with
  | [] => [(k, 1)]
  | (k2, v) :: rest =>
    if k < k2 then (k, 1) :: (k2, v) :: rest
    else if k = k2 then (k2, v + 1) :: rest
    else (k2, v) :: incr rest k

/-- The body of the `for _ in 0..trials` loop of
`get_longrunning_frequency`, with `n` iterations left, `i` the index of
the next entropy read in `env`, and `t` the table accumulated so far.
The `?` on `get_random_int()` propagates the first I/O error. -/
def runTrials (env : Nat → ReadOutcome) : Nat → Nat → FreqTable → Except Nat FreqTable
  | 0, _, t => .ok t
  | n + 1, i, t =>
    match get_random_int (env i) with
    | .error e => .error e
    | .ok number => runTrials env n (i + 1) (incr t (die_roll number))

/-- Embedding of `get_longrunning_frequency`: run `trials` iterations from
an empty table, reads drawn from `env` starting at index 0. -/
def get_longrunning_frequency (env : Nat → ReadOutcome) (trials : Nat) :
    Except Nat FreqTable :=
  runTrials env trials 0 []

/-- Sum of all counts stored in a frequency table. -/
def sumCounts (t : FreqTable) : Nat :=
  (t.map Prod.snd).sum

/-- One stdout line of the report: the face value, its raw count, and the
percentage (the `f64` `100.0 * appearances / trials`, modelled exactly as
a rational). -/
structure OutLine where
  value : Nat
  freq : Nat
  percentage : ℚ
deriving DecidableEq, Repr

/-- The line `main` prints for table entry `(v, c)` at trial count
`trials`. -/
def mkLine (trials v c : Nat) : OutLine :=
  ⟨v, c, 100 * (c : ℚ) / (trials : ℚ)⟩

/-- Rendering of one report line, following the format string
`Value: .., frequency: .., percentage: ..%` of the `println!` in `main`. -/
def renderLine (ln : OutLine) : String :=
  "Value: " ++ toString ln.value ++ ", frequency: " ++ toString ln.freq ++
    ", percentage: " ++ toString ln.percentage ++ "%"

/-- The report loop of `main`: one line per table entry, in the order the
table iterates (ascending key order). -/
def report (trials : Nat) (t : FreqTable) : List OutLine :=
  t.map fun p => mkLine trials p.1 p.2

/-- The body of `main` at a given trial count: on success the report lines
and exit code 0; on a propagated I/O error no stdout lines and exit code 1
(Rust `main` returning `Err`). -/
def runProgram (env : Nat → ReadOutcome) (trials : Nat) : List OutLine × Nat :=
  match get_longrunning_frequency env trials with
  | .error _ => ([], 1)
  | .ok t => (report trials t, 0)

/-- Embedding of `main`: `trials` is the fixed internal constant 10 000. -/
def main (env : Nat → ReadOutcome) : List OutLine × Nat :=
  runProgram env 10000

/-- Every entry of the table has a face key in [1, 6] and a strictly
positive count. -/
def validTable (t : FreqTable) : Prop :=
  ∀ p ∈ t, (1 ≤ p.1 ∧ p.1 ≤ 6) ∧ 1 ≤ p.2

instance (t : FreqTable) : Decidable (validTable t) :=
  List.decidableBAll _ t

/-- The table's keys are strictly increasing (the `BTreeMap` ordering
invariant): every key comes before every later key. -/
def sortedKeys (t : FreqTable) : Prop :=
  List.Pairwise (fun p q : Nat × Nat => p.1 < q.1) t

instance (t : FreqTable) : Decidable (sortedKeys t) :=
  inferInstanceAs (Decidable (List.Pairwise _ t))

/-! ### Helper lemmas about the accumulator and the trial loop -/

/-- Incrementing one face adds exactly one to the total count. -/
theorem incr_sumCounts (t : FreqTable) (k : Nat) :
    sumCounts (incr t k) = sumCounts t + 1 := by
  induction t with
  | nil => simp [incr, sumCounts]
  | cons p rest ih =>
    obtain ⟨k2, v⟩ := p
    by_cases h1 : k < k2
    · simp [incr, h1, sumCounts]
      omega
    · by_cases h2 : k = k2
      · simp [incr, h1, h2, sumCounts]
        omega
      · simp only [incr, if_neg h1, if_neg h2, sumCounts, List.map_cons, List.sum_cons]
        have := ih
        simp only [sumCounts] at this
        omega

/-- A successful run of `n` loop iterations adds exactly `n` to the total
count of the accumulated table. -/
theorem runTrials_sumCounts (env : Nat → ReadOutcome) (n : Nat) :
    ∀ i t t2, runTrials env n i t = .ok t2 → sumCounts t2 = sumCounts t + n := by
  induction n with
  | zero =>
    intro i t t2 h
    simp [runTrials] at h
    simp [h]
  | succ n ih =>
    intro i t t2 h
    rw [runTrials] at h
    cases hg : get_random_int (env i) with
    | error e => rw [hg] at h; cases h
    | ok v =>
      rw [hg] at h
      have := ih (i + 1) (incr t (die_roll v)) t2 h
      rw [incr_sumCounts] at this
      omega

/-- When none of the next `n` reads fails, the loop completes and returns a
table. -/
theorem runTrials_isOk (env : Nat → ReadOutcome) (n : Nat) :
    ∀ i t, (∀ j, j < n → isErr (env (i + j)) = false) →
      ∃ t2, runTrials env n i t = .ok t2 := by
  induction n with
  | zero => intro i t _; exact ⟨t, rfl⟩
  | succ n ih =>
    intro i t h
    have h0 : isErr (env i) = false := by simpa using h 0 (Nat.succ_pos n)
    cases he : env i with
    | err e => rw [he] at h0; simp [isErr] at h0
    | ok data =>
      have hstep : ∃ t2,
          runTrials env n (i + 1) (incr t (die_roll
            (u32_from_le_bytes ((match data with | none => 0 | some b => b % 2 ^ 8)
              &&& 0b00000111) 0 0 0))) = .ok t2 := by
        apply ih
        intro j hj
        have := h (j + 1) (by omega)
        simpa [Nat.add_assoc, Nat.add_comm 1 j] using this
      obtain ⟨t2, ht2⟩ := hstep
      exact ⟨t2, by rw [runTrials, he]; exact ht2⟩

/-- When read `i` (counting from `start`) is the first to fail, the loop
short-circuits there and propagates exactly that error. -/
theorem runTrials_error (env : Nat → ReadOutcome) (i : Nat) :
    ∀ n start t e, i < n → env (start + i) = .err e →
      (∀ j, j < i → isErr (env (start + j)) = false) →
      runTrials env n start t = .error e := by
  induction i with
  | zero =>
    intro n start t e hi he _
    cases n with
    | zero => omega
    | succ n =>
      rw [runTrials]
      rw [show start + 0 = start from rfl] at he
      rw [he]
      rfl
  | succ i ih =>
    intro n start t e hi he hb
    cases n with
    | zero => omega
    | succ n =>
      have h0 : isErr (env start) = false := by simpa using hb 0 (Nat.succ_pos i)
      cases hs : env start with
      | err e2 => rw [hs] at h0; simp [isErr] at h0
      | ok data =>
        rw [runTrials, hs]
        apply ih n (start + 1) _ e (by omega)
        · rw [show start + 1 + i = start + (i + 1) from by omega]
          exact he
        · intro j hj
          rw [show start + 1 + j = start + (j + 1) from by omega]
          exact hb (j + 1) (by omega)

/-- A key of `incr t k` is either `k` or a key already present in `t`. -/
theorem mem_incr (t : FreqTable) (k : Nat) :
    ∀ q ∈ incr t k, q.1 = k ∨ ∃ v, (q.1, v) ∈ t := by
  induction t with
  | nil => simp [incr]
  | cons p rest ih =>
    obtain ⟨k2, v⟩ := p
    intro q hq
    by_cases h1 : k < k2
    · simp only [incr, if_pos h1, List.mem_cons] at hq
      rcases hq with h | h | h
      · exact Or.inl (by rw [h])
      · exact Or.inr ⟨v, by rw [h]; exact List.mem_cons_self _ _⟩
      · exact Or.inr ⟨q.2, List.mem_cons_of_mem _ (by simpa using h)⟩
    · by_cases h2 : k = k2
      · simp only [incr, if_neg h1, if_pos h2, List.mem_cons] at hq
        rcases hq with h | h
        · exact Or.inl (by rw [h, ← h2])
        · exact Or.inr ⟨q.2, List.mem_cons_of_mem _ (by simpa using h)⟩
      · simp only [incr, if_neg h1, if_neg h2, List.mem_cons] at hq
        rcases hq with h | h
        · exact Or.inr ⟨v, by rw [h]; exact List.mem_cons_self _ _⟩
        · rcases ih q h with h3 | ⟨w, h3⟩
          · exact Or.inl h3
          · exact Or.inr ⟨w, List.mem_cons_of_mem _ h3⟩

/-- Incrementing a face in [1, 6] keeps every entry's key in [1, 6] and
every count strictly positive. -/
theorem incr_validTable (t : FreqTable) (k : Nat) (hk : 1 ≤ k ∧ k ≤ 6)
    (h : validTable t) : validTable (incr t k) := by
  induction t with
  | nil =>
    intro q hq
    simp [incr] at hq
    simp [hq, hk]
  | cons p rest ih =>
    obtain ⟨k2, v⟩ := p
    have hhead := h (k2, v) (List.mem_cons_self _ _)
    have hrest : validTable rest := fun q hq => h q (List.mem_cons_of_mem _ hq)
    intro q hq
    by_cases h1 : k < k2
    · simp only [incr, if_pos h1, List.mem_cons] at hq
      rcases hq with h3 | h3 | h3
      · simp [h3, hk]
      · rw [h3]; exact hhead
      · exact hrest q h3
    · by_cases h2 : k = k2
      · simp only [incr, if_neg h1, if_pos h2, List.mem_cons] at hq
        rcases hq with h3 | h3
        · rw [h3]
          exact ⟨hhead.1, by omega⟩
        · exact hrest q h3
      · simp only [incr, if_neg h1, if_neg h2, List.mem_cons] at hq
        rcases hq with h3 | h3
        · rw [h3]; exact hhead
        · exact ih hrest q h3

/-- Incrementing a face keeps the table's keys strictly increasing. -/
theorem incr_sortedKeys (t : FreqTable) (k : Nat) (h : sortedKeys t) :
    sortedKeys (incr t k) := by
  induction t with
  | nil => simp [incr, sortedKeys]
  | cons p rest ih =>
    obtain ⟨k2, v⟩ := p
    rw [sortedKeys, List.pairwise_cons] at h
    obtain ⟨hhead, hrest⟩ := h
    by_cases h1 : k < k2
    · rw [sortedKeys]
      simp only [incr, if_pos h1]
      rw [List.pairwise_cons]
      constructor
      · intro q hq
        rcases List.mem_cons.mp hq with h3 | h3
        · rw [h3]; exact h1
        · exact lt_trans h1 (hhead q h3)
      · rw [List.pairwise_cons]
        exact ⟨hhead, hrest⟩
    · by_cases h2 : k = k2
      · rw [sortedKeys]
        simp only [incr, if_neg h1, if_pos h2]
        rw [List.pairwise_cons]
        exact ⟨hhead, hrest⟩
      · rw [sortedKeys]
        simp only [incr, if_neg h1, if_neg h2]
        rw [List.pairwise_cons]
        refine ⟨?_, ih hrest⟩
        intro q hq
        rcases mem_incr rest k q hq with h3 | ⟨w, h3⟩
        · rw [h3]; omega
        · exact hhead (q.1, w) h3

/-- The face derived from any integer lies in [1, 6]. -/
theorem die_roll_mem (r : Nat) : 1 ≤ die_roll r ∧ die_roll r ≤ 6 := by
  have : r % 6 < 6 := Nat.mod_lt r (by omega)
  simp only [die_roll]
  omega

/-- A successful run of the loop from a table whose entries are valid
returns a table whose entries are valid. -/
theorem runTrials_validTable (env : Nat → ReadOutcome) (n : Nat) :
    ∀ i t t2, validTable t → runTrials env n i t = .ok t2 → validTable t2 := by
  induction n with
  | zero =>
    intro i t t2 hv h
    simp [runTrials] at h
    rw [← h]; exact hv
  | succ n ih =>
    intro i t t2 hv h
    rw [runTrials] at h
    cases hg : get_random_int (env i) with
    | error e => rw [hg] at h; cases h
    | ok v =>
      rw [hg] at h
      exact ih (i + 1) _ t2 (incr_validTable t (die_roll v) (die_roll_mem v) hv) h

/-- A successful run of the loop from a table with strictly increasing keys
returns a table with strictly increasing keys. -/
theorem runTrials_sortedKeys (env : Nat → ReadOutcome) (n : Nat) :
    ∀ i t t2, sortedKeys t → runTrials env n i t = .ok t2 → sortedKeys t2 := by
  induction n with
  | zero =>
    intro i t t2 hs h
    simp [runTrials] at h
    rw [← h]; exact hs
  | succ n ih =>
    intro i t t2 hs h
    rw [runTrials] at h
    cases hg : get_random_int (env i) with
    | error e => rw [hg] at h; cases h
    | ok v =>
      rw [hg] at h
      exact ih (i + 1) _ t2 (incr_sortedKeys t (die_roll v) hs) h

/-- Splitting a run of `a + b` iterations: run `a` first, then `b` more
from where it stopped. -/
theorem runTrials_add (env : Nat → ReadOutcome) (a : Nat) :
    ∀ b i t, runTrials env (a + b) i t =
      (runTrials env a i t).bind fun t2 => runTrials env b (i + a) t2 := by
  induction a with
  | zero =>
    intro b i t
    simp [runTrials, Except.bind]
  | succ a ih =>
    intro b i t
    rw [show a + 1 + b = (a + b) + 1 from by omega, runTrials, runTrials]
    cases hg : get_random_int (env i) with
    | error e => simp [Except.bind]
    | ok v =>
      dsimp only
      rw [ih b (i + 1) (incr t (die_roll v))]
      rw [show i + 1 + a = i + (a + 1) from by omega]

/-! ### The mocked cyclic entropy source of the 6000-trial scenario -/

/-- The mocked entropy source: the i-th read succeeds and delivers the byte
`i % 6`, cycling the raw values 0..5. -/
def cycEnv : Nat → ReadOutcome := fun i => .ok (some (i % 6))

/-- The table mapping every face 1 through 6 to the count `c`. -/
def tableOf (c : Nat) : FreqTable :=
  [(1, c), (2, c), (3, c), (4, c), (5, c), (6, c)]

/-- One loop iteration whose read succeeded with value `v`. -/
theorem runTrials_ok_step (env : Nat → ReadOutcome) (n i : Nat) (t : FreqTable)
    (v : Nat) (h : get_random_int (env i) = .ok v) :
    runTrials env (n + 1) i t = runTrials env n (i + 1) (incr t (die_roll v)) := by
  rw [runTrials, h]

/-- Reading the cyclic source at an index congruent to `j` modulo 6 yields
exactly `j`. -/
theorem cycEnv_read (i j : Nat) (hj : j < 6) (hm : i % 6 = j) :
    get_random_int (cycEnv i) = .ok j := by
  have g : ∀ j, j < 6 → get_random_int (.ok (some j)) = .ok j := by decide
  rw [show cycEnv i = .ok (some j) from by simp [cycEnv, hm]]
  exact g j hj

/-- Six consecutive trials of the cyclic source, starting at a multiple of
6, bump every face's count by one. -/
theorem runTrials_six (q c : Nat) :
    runTrials cycEnv 6 (6 * q) (tableOf c) = .ok (tableOf (c + 1)) := by
  have e0 : get_random_int (cycEnv (6 * q)) = .ok 0 :=
    cycEnv_read _ _ (by omega) (by omega)
  have e1 : get_random_int (cycEnv (6 * q + 1)) = .ok 1 :=
    cycEnv_read _ _ (by omega) (by omega)
  have e2 : get_random_int (cycEnv (6 * q + 1 + 1)) = .ok 2 :=
    cycEnv_read _ _ (by omega) (by omega)
  have e3 : get_random_int (cycEnv (6 * q + 1 + 1 + 1)) = .ok 3 :=
    cycEnv_read _ _ (by omega) (by omega)
  have e4 : get_random_int (cycEnv (6 * q + 1 + 1 + 1 + 1)) = .ok 4 :=
    cycEnv_read _ _ (by omega) (by omega)
  have e5 : get_random_int (cycEnv (6 * q + 1 + 1 + 1 + 1 + 1)) = .ok 5 :=
    cycEnv_read _ _ (by omega) (by omega)
  rw [runTrials_ok_step _ _ _ _ _ e0, runTrials_ok_step _ _ _ _ _ e1,
    runTrials_ok_step _ _ _ _ _ e2, runTrials_ok_step _ _ _ _ _ e3,
    runTrials_ok_step _ _ _ _ _ e4, runTrials_ok_step _ _ _ _ _ e5]
  rfl

/-- Any multiple of six trials of the cyclic source, starting at a multiple
of 6, bumps every face's count by that many sixths. -/
theorem runTrials_cyc (m : Nat) :
    ∀ q c, runTrials cycEnv (6 * m) (6 * q) (tableOf c) = .ok (tableOf (c + m)) := by
  induction m with
  | zero =>
    intro q c
    simp [runTrials]
  | succ m ih =>
    intro q c
    rw [show 6 * (m + 1) = 6 + 6 * m from by ring, runTrials_add]
    rw [runTrials_six q c]
    dsimp only [Except.bind]
    rw [show 6 * q + 6 = 6 * (q + 1) from by ring]
    rw [ih (q + 1) (c + 1)]
    rw [show c + 1 + m = c + (m + 1) from by omega]

/-- The first six trials from the empty table produce one count per face. -/
theorem runTrials_cyc_start : runTrials cycEnv 6 0 [] = .ok (tableOf 1) := rfl

/-- 6000 trials of the cyclic source give every face exactly 1000 counts. -/
theorem get_longrunning_frequency_cyc :
    get_longrunning_frequency cycEnv 6000 = .ok (tableOf 1000) := by
  rw [get_longrunning_frequency,
    show (6000 : Nat) = 6 + 5994 from by norm_num, runTrials_add]
  rw [runTrials_cyc_start]
  dsimp only [Except.bind]
  rw [show (0 + 6 : Nat) = 6 * 1 from by norm_num,
    show (5994 : Nat) = 6 * 999 from by norm_num]
  rw [runTrials_cyc 999 1 1]

/-- A successful call to `get_random_int` returns the (masked) first buffer
byte: 0 when the read delivered no byte, the delivered byte masked with
`0b00000111` otherwise. -/
theorem get_random_int_ok_val (data : Option Nat) :
    get_random_int (.ok data) =
      .ok ((match data with | none => 0 | some b => b % 2 ^ 8) &&& 0b00000111) := by
  cases data <;> simp [get_random_int, u32_from_le_bytes]

/-! ### The claims -/

/-- C1: for every trial count, if all entropy reads succeed, the trial loop
returns a frequency table whose counts sum to exactly the trial count. -/
theorem sum_counts_eq_trials (env : Nat → ReadOutcome) (trials : Nat)
    (h : ∀ j, j < trials → isErr (env j) = false) :
    ∃ t, get_longrunning_frequency env trials = .ok t ∧ sumCounts t = trials := by
  obtain ⟨t, ht⟩ := runTrials_isOk env trials 0 [] (by simpa using h)
  refine ⟨t, ht, ?_⟩
  have := runTrials_sumCounts env trials 0 [] t ht
  simpa [sumCounts] using this

theorem sum_counts_eq_trials_witness :
    ∃ t, get_longrunning_frequency cycEnv 6 = .ok t ∧ sumCounts t = 6 :=
  sum_counts_eq_trials cycEnv 6 (by decide)

/-- C2: face derivation is a deterministic pure function: for every
unsigned 32-bit integer `r` it returns `r % 6 + 1`, a value in [1, 6]. -/
theorem die_roll_spec (r : Nat) (_h : r < 2 ^ 32) :
    die_roll r = r % 6 + 1 ∧ 1 ≤ die_roll r ∧ die_roll r ≤ 6 :=
  ⟨rfl, die_roll_mem r⟩

theorem die_roll_spec_witness :
    (die_roll 0 = 0 % 6 + 1 ∧ 1 ≤ die_roll 0 ∧ die_roll 0 ≤ 6) ∧
    (die_roll 4294967295 = 4294967295 % 6 + 1 ∧ 1 ≤ die_roll 4294967295 ∧
      die_roll 4294967295 ≤ 6) :=
  ⟨die_roll_spec 0 (by norm_num), die_roll_spec 4294967295 (by norm_num)⟩

set_option maxRecDepth 4000 in
/-- C3: whenever `get_random_int` succeeds its value is in [0, 8); when the
read delivered the byte `b`, the value is exactly `b` with the top five
bits cleared (`b % 8`), and the three wider bytes of the 4-byte integer are
zero (`b % 8 / 2 ^ 8 = 0`). -/
theorem get_random_int_ok_spec :
    (∀ o v, get_random_int o = .ok v → v < 8) ∧
    (∀ b, b < 2 ^ 8 →
      get_random_int (.ok (some b)) = .ok (b % 8) ∧
        b % 8 < 8 ∧ b % 8 / 2 ^ 8 = 0) := by
  have hand : ∀ b, b < 2 ^ 8 → b &&& 7 = b % 8 := by decide
  constructor
  · intro o v h
    cases o with
    | err e => exact absurd h (by simp [get_random_int])
    | ok data =>
      rw [get_random_int_ok_val] at h
      injection h with h2
      rw [← h2]
      exact Nat.lt_of_le_of_lt Nat.and_le_right (by norm_num)
  · intro b hb
    refine ⟨?_, by omega, Nat.div_eq_of_lt (by omega)⟩
    rw [get_random_int_ok_val]
    have : b % 2 ^ 8 = b := Nat.mod_eq_of_lt hb
    rw [show ((match some b with | none => 0 | some c => c % 2 ^ 8) : Nat) = b % 2 ^ 8
      from rfl, this, hand b hb]

/-- C7: with zero trials the loop reads nothing, returns the empty table,
and the program prints nothing and exits with code 0. -/
theorem zero_trials_run (env : Nat → ReadOutcome) :
    get_longrunning_frequency env 0 = .ok [] ∧ runProgram env 0 = ([], 0) :=
  ⟨rfl, rfl⟩

/-- C9: `get_random_int` fails exactly when the device access fails; a
successful read that delivers zero bytes is not an error and yields
`Ok 0` from the untouched zero-initialised buffer. -/
theorem get_random_int_error_iff :
    (∀ o, (∃ e, get_random_int o = .error e) ↔ (∃ e, o = .err e)) ∧
    (∀ e, get_random_int (.err e) = .error e) ∧
    get_random_int (.ok none) = .ok 0 := by
  refine ⟨?_, fun e => rfl, rfl⟩
  intro o
  cases o with
  | err e => simp [get_random_int]
  | ok data =>
    rw [get_random_int_ok_val]
    simp

/-- C4: the first failing entropy read short-circuits the loop at that
trial and propagates exactly that error; no table is returned, the program
prints no lines and exits non-zero. -/
theorem first_error_aborts (env : Nat → ReadOutcome) (trials i e : Nat)
    (hi : i < trials) (he : env i = .err e)
    (hb : ∀ j, j < i → isErr (env j) = false) :
    get_longrunning_frequency env trials = .error e ∧
    runProgram env trials = ([], 1) := by
  have h1 : get_longrunning_frequency env trials = .error e := by
    rw [get_longrunning_frequency]
    apply runTrials_error env i trials 0 [] e hi
    · simpa using he
    · intro j hj
      simpa using hb j hj
  exact ⟨h1, by simp [runProgram, h1]⟩

/-- An entropy source whose third read fails with error 7. -/
def envW : Nat → ReadOutcome := fun i => if i = 2 then .err 7 else .ok (some 3)

theorem first_error_aborts_witness :
    get_longrunning_frequency envW 5 = .error 7 ∧ runProgram envW 5 = ([], 1) :=
  first_error_aborts envW 5 2 7 (by norm_num) (by decide) (by decide)

/-- C5: the report for any table the loop returns has exactly one line per
observed face, the lines in strictly ascending face order, and a line
exists for a face exactly when the table observed that face. -/
theorem report_sorted_lines (env : Nat → ReadOutcome) (trials : Nat) (t : FreqTable)
    (h : get_longrunning_frequency env trials = .ok t) :
    List.Pairwise (fun a b : OutLine => a.value < b.value) (report trials t) ∧
    (∀ f, (∃ ln ∈ report trials t, ln.value = f) ↔ ∃ c, (f, c) ∈ t) := by
  have hs : sortedKeys t :=
    runTrials_sortedKeys env trials 0 [] t (by simp [sortedKeys]) h
  constructor
  · rw [report, List.pairwise_map]
    exact hs
  · intro f
    rw [report]
    simp only [List.mem_map]
    constructor
    · rintro ⟨ln, ⟨p, hp, rfl⟩, hv⟩
      simp only [mkLine] at hv
      subst hv
      exact ⟨p.2, by rw [Prod.mk.eta]; exact hp⟩
    · rintro ⟨c, hc⟩
      exact ⟨mkLine trials f c, ⟨(f, c), hc, rfl⟩, rfl⟩

theorem report_sorted_lines_witness :
    List.Pairwise (fun a b : OutLine => a.value < b.value) (report 6 (tableOf 1)) ∧
    (∀ f, (∃ ln ∈ report 6 (tableOf 1), ln.value = f) ↔ ∃ c, (f, c) ∈ tableOf 1) :=
  report_sorted_lines cycEnv 6 (tableOf 1) rfl

/-- C6: for every entry (v, c) of a table the loop returned at trial count
N, the report holds v's line, its percentage is 100 × c / N, and it
renders as the text Value, frequency, percentage with a percent sign. -/
theorem report_line_spec (env : Nat → ReadOutcome) (trials : Nat) (t : FreqTable)
    (_h : get_longrunning_frequency env trials = .ok t)
    (v c : Nat) (hvc : (v, c) ∈ t) :
    mkLine trials v c ∈ report trials t ∧
    (mkLine trials v c).percentage = 100 * (c : ℚ) / (trials : ℚ) ∧
    renderLine (mkLine trials v c) =
      "Value: " ++ toString v ++ ", frequency: " ++ toString c ++
        ", percentage: " ++ toString (100 * (c : ℚ) / (trials : ℚ)) ++ "%" := by
  refine ⟨?_, rfl, rfl⟩
  rw [report]
  exact List.mem_map.mpr ⟨(v, c), hvc, rfl⟩

theorem report_line_spec_witness :
    mkLine 6 1 1 ∈ report 6 (tableOf 1) ∧
    (mkLine 6 1 1).percentage = 100 * ((1 : Nat) : ℚ) / ((6 : Nat) : ℚ) ∧
    renderLine (mkLine 6 1 1) =
      "Value: " ++ toString (1 : Nat) ++ ", frequency: " ++ toString (1 : Nat) ++
        ", percentage: " ++ toString (100 * ((1 : Nat) : ℚ) / ((6 : Nat) : ℚ)) ++ "%" :=
  report_line_spec cycEnv 6 (tableOf 1) rfl 1 1 (by decide)

/-- C8: 6000 trials of the cyclic source 0,1,2,3,4,5,0,1,... give every
face 1 through 6 exactly 1000 counts, and every report line's percentage
is 1000 × 100 / 6000 = 50/3 (16.666... percent). -/
theorem cyclic_trials_uniform :
    get_longrunning_frequency cycEnv 6000 =
      .ok [(1, 1000), (2, 1000), (3, 1000), (4, 1000), (5, 1000), (6, 1000)] ∧
    ∀ ln ∈ report 6000 (tableOf 1000),
      ln.percentage = 100 * (1000 : ℚ) / (6000 : ℚ) ∧ ln.percentage = 50 / 3 := by
  refine ⟨get_longrunning_frequency_cyc, ?_⟩
  intro ln hln
  rw [report, tableOf] at hln
  simp only [List.map_cons, List.map_nil, List.mem_cons, List.not_mem_nil,
    or_false] at hln
  rcases hln with h | h | h | h | h | h <;> subst h <;>
    exact ⟨by norm_num [mkLine], by norm_num [mkLine]⟩

/-- C10: a run of the loop of any length, from any table whose entries all
have a face key in [1, 6] and a positive count, returns a table whose
entries all do; in particular the table the trial loop returns does. -/
theorem table_entries_valid (env : Nat → ReadOutcome) (trials n i : Nat)
    (t t2 : FreqTable) :
    (validTable t → runTrials env n i t = .ok t2 → validTable t2) ∧
    (get_longrunning_frequency env trials = .ok t2 → validTable t2) := by
  constructor
  · exact fun hv h => runTrials_validTable env n i t t2 hv h
  · intro h
    exact runTrials_validTable env trials 0 [] t2 (by simp [validTable]) h

end DieRoll
